import Mathlib

/-!
Shallow embedding of `explain.py` (osfameron/explane): an explainshell-like
plain-text diagram renderer.  Python strings are modelled as `List Char`,
Python dicts as association lists or functions, Python's `None`-able values
as `Option`, and code that can raise (`KeyError`, `ValueError`) as
`Option`-returning definitions.  Machine integers do not overflow here
(all arithmetic is on small non-negative column counts), so columns and
widths are `Nat`.
-/

namespace Explane

/-! ### Glyph algebra: the `boxes` table, `box`, and `overlayc` -/

/-- The `boxes` dict of the source: a recipe string over the compass
directions n/s/e/w (lower case = normal, upper case = bold), always in
canonical n,s,e,w order, mapped to a Unicode box-drawing character. -/
def boxes : List (List Char × Char) :=
  [ (['e','w'], '─'), (['E','W'], '━'), (['n','s'], '│'), (['N','S'], '┃'), (['s','e'], '┌'),
    (['s','E'], '┍'), (['S','e'], '┎'), (['S','E'], '┏'), (['s','w'], '┐'), (['s','W'], '┑'),
    (['S','w'], '┒'), (['S','W'], '┓'), (['n','e'], '└'), (['n','E'], '┕'), (['N','e'], '┖'),
    (['N','E'], '┗'), (['n','w'], '┘'), (['n','W'], '┙'), (['N','w'], '┚'), (['N','W'], '┛'),
    (['n','s','e'], '├'), (['n','s','E'], '┝'), (['N','s','e'], '┞'), (['n','S','e'], '┟'),
    (['N','S','e'], '┠'), (['N','s','E'], '┡'), (['n','S','E'], '┢'), (['N','S','E'], '┣'),
    (['n','s','w'], '┤'), (['n','s','W'], '┥'), (['N','s','w'], '┦'), (['n','S','w'], '┧'),
    (['N','S','w'], '┨'), (['N','s','W'], '┩'), (['n','S','W'], '┪'), (['N','S','W'], '┫'),
    (['s','e','w'], '┬'), (['s','e','W'], '┭'), (['s','E','w'], '┮'), (['s','E','W'], '┯'),
    (['S','e','w'], '┰'), (['S','e','W'], '┱'), (['S','E','w'], '┲'), (['S','E','W'], '┳'),
    (['n','e','w'], '┴'), (['n','e','W'], '┵'), (['n','E','w'], '┶'), (['n','E','W'], '┷'),
    (['N','e','w'], '┸'), (['N','e','W'], '┹'), (['N','E','w'], '┺'), (['N','E','W'], '┻'),
    (['n','s','e','w'], '┼'), (['n','s','e','W'], '┽'), (['n','s','E','w'], '┾'),
    (['n','s','E','W'], '┿'), (['N','s','e','w'], '╀'), (['n','S','e','w'], '╁'),
    (['N','S','e','w'], '╂'), (['N','s','e','W'], '╃'), (['N','s','E','w'], '╄'),
    (['n','S','e','W'], '╅'), (['n','S','E','w'], '╆'), (['N','s','E','W'], '╇'),
    (['n','S','E','W'], '╈'), (['N','S','e','W'], '╉'), (['N','S','E','w'], '╊'),
    (['N','S','E','W'], '╋'), (['w'], '╴'), (['n'], '╵'),
    (['e'], '╶'), (['s'], '╷'), (['W'], '╸'), (['N'], '╹'), (['E'], '╺'),
    (['S'], '╻'), (['E','w'], '╼'), (['n','S'], '╽'), (['e','W'], '╾'), (['N','s'], '╿') ]

/-- `box2recipe = {v: k for (k,v) in boxes.items()}`, as a lookup by value.
The values of `boxes` are pairwise distinct, so the first match is the only
one, exactly as in the inverted dict. -/
def box2recipe (c : Char) : Option (List Char) :=
  (boxes.find? (fun p => p.2 == c)).map (·.1)

/-- An argument of the variadic `box(*items)`: either a plain recipe string
or a `(dirs, case)` pair. -/
def BoxItem : Type := List Char ⊕ (List Char × Bool)

/-- The inner `norm` of `box`: `dirs.upper() if case else dirs.lower()`. -/
def boxNorm : BoxItem → List Char
  | Sum.inl s => s
  | Sum.inr (dirs, case_) => if case_ then dirs.map Char.toUpper else dirs.map Char.toLower

/-- The dict built by `reduce(aux, dirs, {})` in `box`, where
`aux(a,b) = {**a, b.lower(): b}`: a function from the lower-cased direction
to the (cased) character that last mentioned it. -/
def roseFold (m : Char → Option Char) (l : List Char) : Char → Option Char :=
  l.foldl (fun m c => fun d => if d = c.toLower then some c else m d) m

/-- `''.join([rose.get(d, '') for d in 'nsew'])`: the canonical recipe
string of the folded rose. -/
def dirOf (items : List BoxItem) : List Char :=
  (['n', 's', 'e', 'w']).filterMap (roseFold (fun _ => none) ((items.map boxNorm).flatten))

/-- `boxes.get(dir, ...)` without the default. -/
def lookupBox (dir : List Char) : Option Char :=
  (boxes.find? (fun p => p.1 == dir)).map (·.2)

/-- `box(*items)`: fold the items into a rose, re-canonicalise, and look the
recipe up in `boxes`, with a default of space (`boxes.get(dir, ' ')`). -/
def box (items : List BoxItem) : Char :=
  (lookupBox (dirOf items)).getD ' '

/-- `overlayc(a,b)`: overlay two characters occupying the same cell. -/
def overlayc (a b : Char) : Char :=
  if a = ' ' then b
  else if b = ' ' then a
  else
    match box2recipe a, box2recipe b with
    | none, _ => a
    | some _, none => b
    | some ar, some br => box [Sum.inl ar, Sum.inl br]

/-- `zip_longest(aa, bb, fillvalue=' ')`. -/
def zipLongest : List Char → List Char → List (Char × Char)
  | [], bs => bs.map (fun b => (' ', b))
  | a :: as_, [] => (a, ' ') :: zipLongest as_ []
  | a :: as_, b :: bs => (a, b) :: zipLongest as_ bs

/-- `overlay2(aa, bb)`: overlay two rows cell by cell. -/
def overlay2 (aa bb : List Char) : List Char :=
  (zipLongest aa bb).map (fun p => overlayc p.1 p.2)

/-- `overlay(items) = reduce(overlay2, items, '')`. -/
def overlay (items : List (List Char)) : List Char :=
  items.foldl overlay2 []

/-- `drawat(pos, string) = ' ' * pos + string`. -/
def drawat (pos : Nat) (s : List Char) : List Char :=
  List.replicate pos ' ' ++ s

/-- `drawhorizontal(a, b, pen)`: a horizontal run from `min a b` to
`max a b` with end caps, or the empty row when the two ends coincide. -/
def drawhorizontal (a b : Nat) (pen : Bool) : List Char :=
  let a' := min a b
  let b' := max a b
  let l := b' - a'
  if l = 0 then []
  else drawat a' ([box [Sum.inr (['e'], pen)]]
                  ++ List.replicate (l - 1) (box [Sum.inr (['e', 'w'], pen)])
                  ++ [box [Sum.inr (['w'], pen)]])

/-! ### Input tokens and `normalise_tokens` -/

/-- An input entry: a bare string, or a `(string, description)` pair.  A bare
string is the pair with no comment. -/
def Token : Type := List Char × Option (List Char)

/-- A normalised token `(t, c, l, o)`: text, comment, length, offset. -/
structure NToken where
  text : List Char
  comment : Option (List Char)
  len : Nat
  offset : Nat
deriving DecidableEq

/-- The inner `norm` of `normalise_tokens`: length plus a dummy offset 0. -/
def normToken (t : Token) : NToken :=
  ⟨t.1, t.2, t.1.length, 0⟩

/-- The inner `offset` of `normalise_tokens`:
`(a, b) ↦ (*b[0:3], a.offset + a.len)`. -/
def offsetAcc (a b : NToken) : NToken :=
  ⟨b.text, b.comment, b.len, a.offset + a.len⟩

/-- `itertools.accumulate(xs, f)`. -/
def accumulate (f : α → α → α) : List α → List α
  | [] => []
  | x :: xs => List.scanl f x xs

/-- `itemgetter(1)` used as a filter predicate: Python truthiness, under
which both `None` and the empty string are falsy. -/
def hasComment (nt : NToken) : Bool :=
  match nt.comment with
  | none => false
  | some s => !s.isEmpty

/-- The module-level example data `descs`. -/
def descs : List Token :=
  [ ("git".data, none),
    (" ".data, none),
    ("diff-tree".data, some "Compares the content and mode of blobs found via two tree objects".data),
    (" ".data, none),
    ("-M".data, some "Detect renames".data),
    (" ".data, none),
    ("-r".data, some "recurse into subtrees".data),
    (" ".data, none),
    ("--name-status".data,
      some "Show only names and status of changed files\n\nfor example:\n   M   foo.py".data),
    (" ".data, none),
    ("<commit>".data, some "show differences between this commit and preceding one".data) ]

/-- `normalise_tokens(tokens)`.  NB: the body of the source function never
reads its `tokens` parameter: both `ntokens` and hence `header` and `lanes`
are computed from the module-level `descs`
(`ntokens = [norm(desc) for desc in descs]`). -/
def normalise_tokens (tokens : List Token) : List Char × List NToken :=
  let ntokens := descs.map normToken
  let header := (ntokens.map (·.text)).flatten
  let lanes := (accumulate offsetAcc ntokens).filter hasComment
  (header, lanes)

/-! ### `textwrap.wrap` and `reflow`

The source wraps text with Python's `textwrap.wrap(text, width)` (stdlib,
default `TextWrapper` options, in particular `break_long_words=True` and
`drop_whitespace=True`).  The model below follows CPython's
`TextWrapper._munge_whitespace` / `_split` / `_wrap_chunks` for inputs
without tabs or hyphens: tab-stop expansion and the hyphen-aware chunk
regex are not modelled (no input of this repository contains tabs, and the
theorems below restrict to hyphen-free words where the two chunkings
coincide).  `width <= 0` raises `ValueError` in CPython, modelled as
`none`. -/

/-- The whitespace characters `textwrap` replaces by a space. -/
def isPyWS (c : Char) : Bool :=
  c == ' ' || c == '\t' || c == '\n' || c == '\x0b' || c == '\x0c' || c == '\r'

/-- `_munge_whitespace`: every whitespace character becomes a space. -/
def munge (s : List Char) : List Char :=
  s.map (fun c => if isPyWS c then ' ' else c)

/-- `_split`: maximal runs of spaces / non-spaces (post-munge the only
whitespace is the space character). -/
def chunkRuns : List Char → List (List Char)
  | [] => []
  | c :: cs =>
    match chunkRuns cs with
    | [] => [[c]]
    | [] :: rest => [c] :: [] :: rest
    | (d :: ds) :: rest =>
      if (c == ' ') == (d == ' ') then (c :: d :: ds) :: rest
      else [c] :: (d :: ds) :: rest

/-- The greedy inner loop of `_wrap_chunks`: pop chunks onto the current
line while they fit.  Returns (line chunks, their length, rest). -/
def fillLine (width : Nat) : List (List Char) → Nat → List (List Char) →
    List (List Char) × Nat × List (List Char)
  | [], len, cur => (cur, len, [])
  | ch :: rest, len, cur =>
    if len + ch.length ≤ width then fillLine width rest (len + ch.length) (cur ++ [ch])
    else (cur, len, ch :: rest)

/-- The `drop_whitespace` deletion at the head of a line (only once a first
line exists). -/
def dropLeadingWS (hasLines : Bool) (chunks : List (List Char)) : List (List Char) :=
  match hasLines, chunks with
  | true, c0 :: ctail => if c0.all (· == ' ') then ctail else c0 :: ctail
  | _, cs => cs

/-- The outer `while chunks:` loop of `_wrap_chunks`.  Every iteration
either consumes a character or a chunk, so `total characters + number of
chunks + 1` is always enough fuel; the fuel-out branch is unreachable for
the fuel the wrapper below passes. -/
def wrapLoop (width : Nat) : Nat → Bool → List (List Char) → List (List Char)
  | 0, _, _ => []
  | fuel + 1, hasLines, chunks =>
    match chunks with
    | [] => []
    | _ :: _ =>
      match dropLeadingWS hasLines chunks with
      | [] => []
      | c1 :: ctail1 =>
        let t := fillLine width (c1 :: ctail1) 0 []
        let cur := t.1
        let curlen := t.2.1
        let rest := t.2.2
        let s :=
          match rest with
          | [] => (cur, ([] : List (List Char)))
          | ch :: rtail =>
            if width < ch.length then
              let spaceLeft := if width < 1 then 1 else width - curlen
              (cur ++ [ch.take spaceLeft], ch.drop spaceLeft :: rtail)
            else (cur, ch :: rtail)
        let cur3 :=
          match s.1.getLast? with
          | some lc => if lc.all (· == ' ') then s.1.dropLast else s.1
          | none => s.1
        match cur3 with
        | [] => wrapLoop width fuel hasLines s.2
        | _ :: _ => cur3.flatten :: wrapLoop width fuel true s.2

/-- `TextWrapper.wrap(text)` for a positive width. -/
def wrapChunks (width : Nat) (text : List Char) : List (List Char) :=
  let chunks := chunkRuns (munge text)
  wrapLoop width (text.length + chunks.length + 1) false chunks

/-- `textwrap.wrap(text, width)`; `none` models the `ValueError` on a
non-positive width. -/
def wrap (text : List Char) (width : Nat) : Option (List (List Char)) :=
  if width = 0 then none else some (wrapChunks width text)

/-- Python `str.split("\n")` (keeps empty pieces; `"".split("\n") == ['']`). -/
def splitNL : List Char → List (List Char)
  | [] => [[]]
  | c :: cs =>
    if c = '\n' then [] :: splitNL cs
    else
      match splitNL cs with
      | [] => [[c]]
      | p :: ps => (c :: p) :: ps

/-- `reflow(text, width) = flatten([wrap(para, width) for para in
text.split("\n")])`. -/
def reflow (text : List Char) (width : Nat) : Option (List (List Char)) :=
  ((splitNL text).mapM (fun para => wrap para width)).map List.flatten

example : reflow "aaaaaaa".data 3 = some ["aaa".data, "aaa".data, "a".data] := rfl
example : reflow "ab cd".data 3 = some ["ab".data, "cd".data] := rfl
example : reflow "a  b".data 3 = some ["a".data, "b".data] := rfl
example : reflow "one two\n\nthree".data 8 =
    some ["one two".data, "three".data] := rfl
example : wrap "hello".data 0 = none := rfl
example : (normalise_tokens descs).1 = "git diff-tree -M -r --name-status <commit>".data := rfl

/-! ### Lanes, instructions and the resolver

A lane tuple of the source is `(pos, pen, text)` (the marker pass adds a
trailing `None` that the resolver's `(pos, pen, *_)` / `(pos, _, text, *_)`
destructurings never read, so it is dropped here).  `text` is the comment,
possibly `None`.  Instruction dicts are built only by `move` (keys
`pos`,`to`) and `go` (keys `pos`,`to`,`go`), so they are modelled as a
record with a `go` flag. -/

structure Lane where
  col : Nat
  pen : Bool
  text : Option (List Char)
deriving DecidableEq

structure Instr where
  pos : Nat
  dest : Nat
  go : Bool
deriving DecidableEq

/-- `move(f, t) = {'pos': f, 'to': t}` (the source's `'to'` key is the `dest` field; `to` is a reserved token in Lean). -/
def move (f t : Nat) : Instr := ⟨f, t, false⟩

/-- `go(f, t) = {'pos': f, 'to': t, 'go': True}`. -/
def go (f t : Nat) : Instr := ⟨f, t, true⟩

/-- The dicts `pens = {pos: pen for ...}` / `texts = {pos: text for ...}`
over `existing`, as one lookup: a dict comprehension keeps the last entry
for a duplicated key, and `d[k]` on a missing key raises `KeyError`,
modelled by `none`. -/
def lastLane (existing : List Lane) (k : Nat) : Option Lane :=
  existing.reverse.find? (fun la => la.col == k)

/-- The sort key of `sorted(continuation, key=fst)`. -/
def laneRel (a b : Lane) : Prop := a.col ≤ b.col

instance : DecidableRel laneRel := fun a b => Nat.decLe a.col b.col

instance : IsTotal Lane laneRel := ⟨fun a b => Nat.le_total a.col b.col⟩

instance : IsTrans Lane laneRel := ⟨fun _ _ _ h h' => Nat.le_trans h h'⟩

/-- `itertools.groupby(·, fst)`: consecutive elements sharing a column are
grouped; every emitted group is nonempty by construction. -/
def groupby : List Lane → List (Nat × List Lane)
  | [] => []
  | x :: xs =>
    match groupby xs with
    | [] => [(x.col, [x])]
    | (k, g) :: rest =>
      if x.col = k then (k, x :: g) :: rest
      else (x.col, [x]) :: (k, g) :: rest

/-- The inner `aux(k, v)` of `resolve`: `pen = any(map(snd, v))` and the
comment of the first member (`itertools.groupby` never yields an empty
group, so the `[]` branch is unreachable). -/
def auxMerge (p : Nat × List Lane) : Lane :=
  ⟨p.1, p.2.any (·.pen),
    match p.2 with
    | [] => none
    | x :: _ => x.text⟩

/-- `[aux(k, v) for (k, v) in groupby(sorted(continuation, key=fst), fst)]`. -/
def nextStateOf (continuation : List Lane) : List Lane :=
  (groupby (List.insertionSort laneRel continuation)).map auxMerge

/-- `[cont(i) for i in instructions if not 'go' in i]` where
`cont(i) = (i['to'], pens[i['pos']], texts[i['pos']])`. -/
def contsOf (existing : List Lane) (instructions : List Instr) : Option (List Lane) :=
  (instructions.filter (fun i => !i.go)).mapM
    (fun i => (lastLane existing i.pos).map (fun la => (⟨i.dest, la.pen, la.text⟩ : Lane)))

/-- The lanes with no explicit instruction, passed through implicitly. -/
def implicitOf (existing : List Lane) (instructions : List Instr) : List Lane :=
  existing.filter (fun la => !((instructions.map (·.pos)).contains la.col))

/-- `continuation = [cont(i) for i in instructions if not 'go' in i] + implicit`. -/
def continuationOf (existing : List Lane) (instructions : List Instr) : Option (List Lane) :=
  (contsOf existing instructions).map (· ++ implicitOf existing instructions)

/-- `drawverticals(point, items)`. -/
def drawverticals (point : Char) (items : List Lane) : List Char :=
  overlay (items.map (fun la => drawat la.col [box [Sum.inr ([point], la.pen)]]))

/-- The body of `resolve` up to `(lines, nextState)`: north stubs,
horizontal runs (`pens[i['pos']]` can raise), merged next state, south
stubs, and the overlaid row. -/
def resolveStep (existing : List Lane) (instructions : List Instr) :
    Option (List Char × List Lane) :=
  let n := drawverticals 'n' existing
  match instructions.mapM
      (fun i => (lastLane existing i.pos).map (fun la => drawhorizontal i.pos i.dest la.pen)) with
  | none => none
  | some hs =>
    let ew := overlay hs
    match continuationOf existing instructions with
    | none => none
    | some continuation =>
      let nextState := nextStateOf continuation
      let s := drawverticals 's' nextState
      some (overlay [n, ew, s], nextState)

/-- `resolve(existing, instructions, width=65)`.  The terminate branch
recurses as `resolve(nextState, [])`; with an empty instruction batch the
recursive call cannot itself terminate, so it equals `resolveStep nextState
[]` (proved below as `resolve_nil`), which is how the recursion is
expressed here. -/
def resolve (existing : List Lane) (instructions : List Instr) (width : Nat := 65) :
    Option (List Char × List Lane) :=
  match resolveStep existing instructions with
  | none => none
  | some (lines, nextState) =>
    match instructions.find? (fun i => i.go) with
    | none => some (lines, nextState)
    | some gone =>
      match lastLane existing gone.pos with
      | none => none
      | some la =>
        match la.text with
        | none => none
        | some t =>
          match reflow t (width - lines.length - 1) with
          | none => none
          | some text =>
            match resolveStep nextState [] with
            | none => none
            | some (thenRow, _) =>
              let first := lines ++ [' ']
              let then2 := thenRow ++ List.replicate (first.length - thenRow.length) ' '
              let out := List.intercalate ['\n']
                (((first :: List.replicate (text.length - 1) then2).zip text).map
                  (fun p => p.1 ++ p.2))
              some (out, nextState)

/-! ### The marker, left-packing and definition passes -/

/-- The five-tuple built by the inner `aux` of `nmarkers`
(`(o, o + int(l/2), o + l - 1, c, None)`; the trailing `None` is never
read and is dropped). -/
structure PSpan where
  start : Nat
  mean : Nat
  stop : Nat
  comment : Option (List Char)
deriving DecidableEq

/-- `ps = list(map(aux, ts))` in `nmarkers`. -/
def psOf (ts : List NToken) : List PSpan :=
  ts.map (fun t => ⟨t.offset, t.offset + t.len / 2, t.offset + t.len - 1, t.comment⟩)

/-- `flatten([[(start, pen, c, None), (end, pen, c, None)] for ((...), pen)
in zip(ps, pens)])` with `pens = cycle([False, True])` (`usePens` is
hard-coded `True`); the cycle is modelled by the alternating Boolean
threaded through the recursion. -/
def preAux : List PSpan → Bool → List Lane
  | [], _ => []
  | p :: ps, b => ⟨p.start, b, p.comment⟩ :: ⟨p.stop, b, p.comment⟩ :: preAux ps (!b)

/-- The `pre` lane list of `nmarkers`. -/
def nmarkersPre (ts : List NToken) : List Lane :=
  preAux (psOf ts) false

/-- The instruction batch of `nmarkers`: both boundary lanes of every span
move to its pivot column. -/
def nmarkersInstructions (ts : List NToken) : List Instr :=
  ((psOf ts).map (fun p => [move p.start p.mean, move p.stop p.mean])).flatten

/-- `nmarkers(ts) = resolve(pre, instructions)`. -/
def nmarkers (ts : List NToken) : Option (List Char × List Lane) :=
  resolve (nmarkersPre ts) (nmarkersInstructions ts)

/-- `toleft_instructions(lanes)`: one singleton batch per lane, moving
`lanes[idx]` to column `idx`. -/
def toleft_instructions (lanes : List Lane) : List (List Instr) :=
  lanes.enum.map (fun p => [move p.2.col p.1])

/-- `define_instructions(lanes)`: one singleton terminate batch per lane,
each routing to `len(lanes) + 1`. -/
def define_instructions (lanes : List Lane) : List (List Instr) :=
  lanes.map (fun la => [go la.col (lanes.length + 1)])

/-- `resolve_list(lanes, instructions)`: chain `resolve` over the batches,
collecting one output row per batch. -/
def resolve_list (lanes : List Lane) (instructions : List (List Instr)) :
    Option (List Char × List Lane) :=
  match instructions.foldlM
      (fun (acc : List (List Char) × List Lane) i =>
        (resolve acc.2 i).map (fun r => (acc.1 ++ [r.1], r.2)))
      ([], lanes) with
  | none => none
  | some (output, lanes) => some (List.intercalate ['\n'] output, lanes)

/-- `toleft(lanes)`. -/
def toleft (lanes : List Lane) : Option (List Char × List Lane) :=
  resolve_list lanes (toleft_instructions lanes)

/-- `define(lanes)`. -/
def define (lanes : List Lane) : Option (List Char × List Lane) :=
  resolve_list lanes (define_instructions lanes)

/-! ### Derived notions used only in theorem statements -/

/-- An edge assignment: for each of north, south, east, west, absent or
present-with-a-boldness. -/
def EdgeDirs : Type := Option Bool × Option Bool × Option Bool × Option Bool

instance : DecidableEq EdgeDirs := by unfold EdgeDirs; infer_instance

instance : Fintype EdgeDirs := by unfold EdgeDirs; infer_instance

/-- The `box` arguments corresponding to an edge assignment: one
`(direction, boldness)` item per present edge. -/
def toItems (a : EdgeDirs) : List BoxItem :=
  (a.1.map (fun b => (Sum.inr (['n'], b) : BoxItem))).toList
    ++ (a.2.1.map (fun b => (Sum.inr (['s'], b) : BoxItem))).toList
    ++ (a.2.2.1.map (fun b => (Sum.inr (['e'], b) : BoxItem))).toList
    ++ (a.2.2.2.map (fun b => (Sum.inr (['w'], b) : BoxItem))).toList

/-- The empty edge assignment. -/
def noEdges : EdgeDirs := (none, none, none, none)

/-- Two recipes agree in boldness on their shared directions (the rose of
each is consulted only at the four canonical directions). -/
def agreeOn (ra rb : List Char) : Prop :=
  ∀ d ∈ (['n', 's', 'e', 'w'] : List Char),
    (roseFold (fun _ => none) ra d).isSome → (roseFold (fun _ => none) rb d).isSome →
      roseFold (fun _ => none) ra d = roseFold (fun _ => none) rb d

instance (ra rb : List Char) : Decidable (agreeOn ra rb) := by
  unfold agreeOn; infer_instance

example : resolve [⟨0, false, some ['t']⟩] [] = some (['│'], [⟨0, false, some ['t']⟩]) := rfl
example : resolve [⟨0, false, some ['a']⟩, ⟨1, true, some ['b']⟩] [move 0 1] =
    some (['└', '┨'], [⟨1, true, some ['a']⟩]) := rfl
example : resolve [] [move 0 1] = none := rfl

example : box [Sum.inl ['n', 's']] = '│' := rfl
example : box [Sum.inl ['e','w'], Sum.inl ['E','W']] = '━' := rfl
example : box [Sum.inl ['E','W'], Sum.inl ['e','w']] = '─' := rfl
example : box [Sum.inr (['e'], true)] = '╺' := rfl
example : box ([] : List BoxItem) = ' ' := rfl
example : overlayc '┌' '┐' = '┬' := rfl
example : drawhorizontal 2 4 false = [' ', ' ', '╶', '─', '╴'] := rfl


/-! ## C1: the header built by `normalise_tokens` -/

/-- C1 (code bug): the docstring of `normalise_tokens` (and the spec)
promise that the header is the concatenation of the *input* tokens' string
parts in order, but the body reads the module-level `descs` instead of its
`tokens` parameter (`ntokens = [norm(desc) for desc in descs]`): on the
input `[("ab", None)]` it returns the header of the git example, whose
length is not `len("ab")`. -/
theorem normalise_tokens_ignores_argument :
    (normalise_tokens [("ab".data, none)]).1
      = "git diff-tree -M -r --name-status <commit>".data
    ∧ (normalise_tokens [("ab".data, none)]).1.length ≠ ("ab".data).length :=
  ⟨rfl, by decide⟩

/-! ## C4: totality of glyph composition -/

/-- C4: `box` (the spec's `compose`) is total and deterministic over every
per-direction assignment over the 2^4 subsets of n/s/e/w with any
boldness on present edges: every nonempty assignment hits the glyph
table, `box` returns exactly the looked-up character, and the empty edge
set yields the space character. -/
theorem compose_total :
    (∀ a : EdgeDirs, a ≠ noEdges → (lookupBox (dirOf (toItems a))).isSome = true)
    ∧ (∀ (a : EdgeDirs) (c : Char), lookupBox (dirOf (toItems a)) = some c → box (toItems a) = c)
    ∧ box (toItems noEdges) = ' ' := by
  refine ⟨by decide, ?_, by decide⟩
  intro a c h
  simp [box, h]

/-- Witness for `compose_total`: the assignment with a bold north edge and
a normal west edge is nonempty, hits the table, and composes to `┚`. -/
theorem compose_total_witness :
    (((some true, none, none, some false) : EdgeDirs) ≠ noEdges)
    ∧ (lookupBox (dirOf (toItems ((some true, none, none, some false) : EdgeDirs)))).isSome = true
    ∧ box (toItems ((some true, none, none, some false) : EdgeDirs)) = '┚' :=
  ⟨by decide, compose_total.1 _ (by decide), compose_total.2.1 _ '┚' (by decide)⟩

/-! ## C5: absent edge combinations -/

/-- C5 (counterexample): the only edge combination absent from the glyph
table is the empty one, and requesting it does *not* fail: `box` is total
and returns the space character (the source's `boxes.get(dir, ' ')`
default).  The source defines no `GlyphError` — nor any exception — in
the glyph path. -/
theorem box_absent_returns_character :
    lookupBox (dirOf ([] : List BoxItem)) = none ∧ box ([] : List BoxItem) = ' ' :=
  ⟨rfl, rfl⟩

/-- C5 (amended): requesting a glyph for an edge combination absent from
the glyph table yields the space character via the lookup's default; no
error is raised. -/
theorem box_absent_defaults_to_space :
    ∀ items : List BoxItem, lookupBox (dirOf items) = none → box items = ' ' := by
  intro items h
  simp [box, h]

/-- Witness for `box_absent_defaults_to_space` at the empty item list. -/
theorem box_absent_defaults_to_space_witness :
    lookupBox (dirOf ([] : List BoxItem)) = none ∧ box ([] : List BoxItem) = ' ' :=
  ⟨rfl, box_absent_defaults_to_space [] rfl⟩

/-! ## C8: the definition pass -/

/-- C8 (counterexample): on the already-left-packed singleton lane set at
column 0 the rightmost lane is at column 0 and "one past the rightmost" is
column 1, but `define_instructions` routes the lane to
`len(lanes) + 1 = 2`. -/
theorem define_instructions_counterexample :
    define_instructions [⟨0, false, some ['d']⟩] = [[go 0 2]] ∧ (2 : Nat) ≠ 0 + 1 :=
  ⟨rfl, by decide⟩

/-- C8 (amended): the definition pass issues exactly one terminate
instruction per lane, in original left-to-right order, each routing its
lane to column `len(lanes) + 1` — two (not one) past the rightmost column
`n - 1` of a left-packed lane set occupying columns `0 .. n-1`. -/
theorem define_instructions_spec (lanes : List Lane) (n : Nat)
    (h : lanes.map Lane.col = List.range n) :
    define_instructions lanes = (List.range n).map (fun i => [go i (n + 1)])
    ∧ (0 < n → n + 1 = (n - 1) + 2) := by
  have hlen : lanes.length = n := by
    have hc := congrArg List.length h
    simpa using hc
  constructor
  · unfold define_instructions
    rw [hlen]
    have hmm : lanes.map (fun la => [go la.col (n + 1)])
        = (lanes.map Lane.col).map (fun c => [go c (n + 1)]) := by
      rw [List.map_map]
      rfl
    rw [hmm, h]
  · omega

/-- Witness for `define_instructions_spec` on a two-lane packed set. -/
theorem define_instructions_spec_witness :
    (([⟨0, false, none⟩, ⟨1, true, none⟩] : List Lane).map Lane.col = List.range 2)
    ∧ (define_instructions [⟨0, false, none⟩, ⟨1, true, none⟩]
        = (List.range 2).map (fun i => [go i (2 + 1)])
      ∧ (0 < 2 → 2 + 1 = (2 - 1) + 2)) :=
  ⟨by decide, define_instructions_spec _ 2 (by decide)⟩

/-! ## Stable sorting and grouping lemmas for the resolver -/

/-- `orderedInsert` commutes with filtering on a column: the elements an
insertion walks past all have strictly smaller columns. -/
theorem filter_orderedInsert (k : Nat) (a : Lane) (l : List Lane) :
    (l.orderedInsert laneRel a).filter (fun x => x.col == k)
      = if a.col = k then a :: l.filter (fun x => x.col == k)
        else l.filter (fun x => x.col == k) := by
  induction l with
  | nil =>
    by_cases hak : a.col = k <;> simp [List.orderedInsert, List.filter_cons, hak]
  | cons b bs ih =>
    by_cases hr : laneRel a b
    · by_cases hak : a.col = k <;> by_cases hbk : b.col = k <;>
        simp [List.orderedInsert, hr, List.filter_cons, hak, hbk]
    · have hba : b.col < a.col := by
        simp only [laneRel] at hr
        omega
      by_cases hak : a.col = k
      · have hbk : ¬ b.col = k := by omega
        simp [List.orderedInsert, hr, List.filter_cons, hak, hbk, ih]
      · by_cases hbk : b.col = k <;>
          simp [List.orderedInsert, hr, List.filter_cons, hak, hbk, ih]

/-- Stability of the sort used by `resolve`, in the form the merge step
needs: sorting does not change the subsequence of lanes at any fixed
column. -/
theorem filter_insertionSort (k : Nat) (l : List Lane) :
    (List.insertionSort laneRel l).filter (fun x => x.col == k)
      = l.filter (fun x => x.col == k) := by
  induction l with
  | nil => rfl
  | cons a l ih =>
    by_cases hak : a.col = k <;>
      simp [List.insertionSort, filter_orderedInsert, hak, ih, List.filter_cons]

/-- The defining equation of `groupby` on a cons, as a rewrite rule (used
instead of `simp [groupby]`, which would also unfold the recursive call). -/
theorem groupby_cons (x : Lane) (xs : List Lane) :
    groupby (x :: xs)
      = match groupby xs with
        | [] => [(x.col, [x])]
        | (k, g) :: rest =>
          if x.col = k then (k, x :: g) :: rest else (x.col, [x]) :: (k, g) :: rest := rfl

/-- The first group of `groupby` starts with the first element and carries
its column. -/
theorem groupby_cons_shape (x : Lane) (xs : List Lane) :
    ∃ g rest, groupby (x :: xs) = (x.col, x :: g) :: rest := by
  cases hg : groupby xs with
  | nil => exact ⟨[], [], by rw [groupby_cons, hg]⟩
  | cons p rest =>
    obtain ⟨k, g⟩ := p
    by_cases hk : x.col = k
    · exact ⟨g, rest, by rw [groupby_cons, hg]; simp [hk]⟩
    · exact ⟨[], (k, g) :: rest, by rw [groupby_cons, hg]; simp [hk]⟩

/-- On a `laneRel`-sorted list the group keys are strictly increasing. -/
theorem groupby_sorted_keys : ∀ {l : List Lane}, l.Pairwise laneRel →
    ((groupby l).map Prod.fst).Pairwise (· < ·) := by
  intro l
  induction l with
  | nil => intro _; simp [groupby]
  | cons x xs ih =>
    intro hp
    cases xs with
    | nil => simp [groupby]
    | cons y ys =>
      obtain ⟨g0, rest, hg⟩ := groupby_cons_shape y ys
      have hxy : x.col ≤ y.col := List.rel_of_pairwise_cons hp (List.mem_cons_self y ys)
      have ihk := ih hp.of_cons
      rw [hg] at ihk
      simp only [List.map_cons] at ihk
      by_cases hk : x.col = y.col
      · have hgl : groupby (x :: y :: ys) = (y.col, x :: y :: g0) :: rest := by
          rw [groupby_cons, hg]
          simp [hk]
        rw [hgl]
        simpa using ihk
      · have hgl : groupby (x :: y :: ys) = (x.col, [x]) :: (y.col, y :: g0) :: rest := by
          rw [groupby_cons, hg]
          simp [hk]
        rw [hgl]
        simp only [List.map_cons]
        refine List.Pairwise.cons ?_ ihk
        intro k' hk'
        have hxlt : x.col < y.col := Nat.lt_of_le_of_ne hxy hk
        rcases List.mem_cons.mp hk' with h1 | h2
        · omega
        · have := List.rel_of_pairwise_cons ihk h2
          omega

/-- On a sorted list, the unique group at column `k` collects exactly the
lanes at column `k`, in their list order. -/
theorem groupby_filter_key (k : Nat) : ∀ {l : List Lane}, l.Pairwise laneRel →
    ∀ {x : Lane} {xs : List Lane}, l.filter (fun la => la.col == k) = x :: xs →
    (groupby l).filter (fun p => p.1 == k) = [(k, x :: xs)] := by
  intro l
  induction l with
  | nil => intro _ x xs h; simp at h
  | cons a l' ih =>
    intro hp x xs hfil
    cases l' with
    | nil =>
      by_cases hak : a.col = k
      · simp only [List.filter_cons, List.filter_nil] at hfil
        rw [if_pos (by simpa using hak)] at hfil
        obtain ⟨rfl, rfl⟩ : a = x ∧ ([] : List Lane) = xs := by simpa using hfil
        simp [groupby, List.filter_cons, hak]
      · simp only [List.filter_cons, List.filter_nil] at hfil
        rw [if_neg (by simpa using hak)] at hfil
        simp at hfil
    | cons y ys =>
      obtain ⟨g0, rest, hg⟩ := groupby_cons_shape y ys
      have hxy : a.col ≤ y.col := List.rel_of_pairwise_cons hp (List.mem_cons_self y ys)
      have hkeys := groupby_sorted_keys hp.of_cons
      rw [hg] at hkeys
      simp only [List.map_cons] at hkeys
      have hrest_gt : ∀ p ∈ rest, y.col < p.1 := by
        intro p hp'
        exact List.rel_of_pairwise_cons hkeys (List.mem_map_of_mem Prod.fst hp')
      by_cases hmerge : a.col = y.col
      · have hgl : groupby (a :: y :: ys) = (y.col, a :: y :: g0) :: rest := by
          rw [groupby_cons, hg]
          simp [hmerge]
        by_cases hak : a.col = k
        · have hyk : y.col = k := by omega
          rw [List.filter_cons, if_pos (by simpa using hak)] at hfil
          obtain ⟨rfl, hxs⟩ : a = x ∧ (y :: ys).filter (fun la => la.col == k) = xs := by
            simpa using hfil
          have hfil2 : (y :: ys).filter (fun la => la.col == k)
              = y :: ys.filter (fun la => la.col == k) := by
            rw [List.filter_cons, if_pos (by simpa using hyk)]
          have hIH := ih hp.of_cons hfil2
          have hrest_nil : rest.filter (fun p => p.1 == k) = [] := by
            rw [List.filter_eq_nil_iff]
            intro p hp'
            have := hrest_gt p hp'
            simp only [beq_iff_eq]
            omega
          rw [hg, List.filter_cons, if_pos (by simpa using hyk), hrest_nil] at hIH
          simp only [List.cons.injEq, Prod.mk.injEq, and_true] at hIH
          obtain ⟨hyk2, hgy⟩ := hIH
          have hg0 : g0 = ys.filter (fun la => la.col == k) := by
            simpa using hgy
          have hxs2 : xs = y :: ys.filter (fun la => la.col == k) := by
            rw [← hxs, hfil2]
          rw [hgl, List.filter_cons, if_pos (by simpa using hyk), hrest_nil]
          rw [hyk, hxs2, hg0]
        · have hyk : ¬ y.col = k := by omega
          rw [List.filter_cons, if_neg (by simpa using hak)] at hfil
          have hIH := ih hp.of_cons hfil
          rw [hg, List.filter_cons, if_neg (by simpa using hyk)] at hIH
          rw [hgl, List.filter_cons, if_neg (by simpa using hyk)]
          exact hIH
      · have hgl : groupby (a :: y :: ys) = (a.col, [a]) :: (y.col, y :: g0) :: rest := by
          rw [groupby_cons, hg]
          simp [hmerge]
        have hlt : a.col < y.col := Nat.lt_of_le_of_ne hxy hmerge
        by_cases hak : a.col = k
        · have hys_ge : ∀ z ∈ (y :: ys), y.col ≤ z.col := by
            intro z hz
            rcases List.mem_cons.mp hz with rfl | hz'
            · exact Nat.le_refl _
            · exact List.rel_of_pairwise_cons hp.of_cons hz'
          have hfil_tail : (y :: ys).filter (fun la => la.col == k) = [] := by
            rw [List.filter_eq_nil_iff]
            intro z hz
            have := hys_ge z hz
            simp only [beq_iff_eq]
            omega
          rw [List.filter_cons, if_pos (by simpa using hak), hfil_tail] at hfil
          obtain ⟨rfl, rfl⟩ : a = x ∧ ([] : List Lane) = xs := by simpa using hfil
          have hgb_tail_nil : ((y.col, y :: g0) :: rest).filter (fun p => p.1 == k) = [] := by
            rw [List.filter_eq_nil_iff]
            intro p hp'
            rcases List.mem_cons.mp hp' with rfl | hp''
            · simp only [beq_iff_eq]
              omega
            · have := hrest_gt p hp''
              simp only [beq_iff_eq]
              omega
          have hsplit : ((a.col, [a]) :: (y.col, y :: g0) :: rest).filter (fun p => p.1 == k)
              = (a.col, [a]) :: ((y.col, y :: g0) :: rest).filter (fun p => p.1 == k) := by
            rw [List.filter_cons, if_pos (by simpa using hak)]
          rw [hgl, hsplit, hgb_tail_nil]
          simp [hak]
        · rw [List.filter_cons, if_neg (by simpa using hak)] at hfil
          have hIH := ih hp.of_cons hfil
          rw [hg] at hIH
          rw [hgl, List.filter_cons, if_neg (by simpa using hak)]
          exact hIH

/-- The merged next state restricted to a column: exactly one lane, bold
iff any contributor is bold, carrying the first contributor's text. -/
theorem nextStateOf_filter (c : List Lane) (k : Nat) (x : Lane) (xs : List Lane)
    (h : c.filter (fun la => la.col == k) = x :: xs) :
    (nextStateOf c).filter (fun la => la.col == k)
      = [⟨k, (x :: xs).any Lane.pen, x.text⟩] := by
  have hsorted : (List.insertionSort laneRel c).Pairwise laneRel := by
    simpa [List.Sorted] using List.sorted_insertionSort laneRel c
  have hfil : (List.insertionSort laneRel c).filter (fun la => la.col == k) = x :: xs := by
    rw [filter_insertionSort]
    exact h
  have hg := groupby_filter_key k hsorted hfil
  unfold nextStateOf
  rw [List.filter_map]
  have hpred : ((fun la : Lane => la.col == k) ∘ auxMerge)
      = (fun p : Nat × List Lane => p.1 == k) := by
    funext p
    rfl
  rw [hpred, hg]
  simp [auxMerge]

/-- The merged next state always has strictly increasing columns. -/
theorem nextStateOf_sorted_cols (c : List Lane) :
    ((nextStateOf c).map Lane.col).Pairwise (· < ·) := by
  have h := groupby_sorted_keys (l := List.insertionSort laneRel c)
    (by simpa [List.Sorted] using List.sorted_insertionSort laneRel c)
  unfold nextStateOf
  rw [List.map_map]
  have hpr : (Lane.col ∘ auxMerge) = (Prod.fst : Nat × List Lane → Nat) := by
    funext p
    rfl
  rw [hpr]
  exact h

/-- A successful `resolveStep` returns the merged next state of the
continuation list. -/
theorem resolveStep_state {existing : List Lane} {instructions : List Instr}
    {lines : List Char} {ns : List Lane}
    (h : resolveStep existing instructions = some (lines, ns)) :
    ∃ cont, continuationOf existing instructions = some cont ∧ ns = nextStateOf cont := by
  unfold resolveStep at h
  split at h
  · exact absurd h (by simp)
  · split at h
    · exact absurd h (by simp)
    · rename_i cont h2
      injection h with h'
      exact ⟨cont, h2, (congrArg Prod.snd h').symm⟩

/-- A successful `resolve` returns the merged next state of the
continuation list (with or without a terminate instruction). -/
theorem resolve_state {existing : List Lane} {instructions : List Instr} {w : Nat}
    {r : List Char × List Lane} (h : resolve existing instructions w = some r) :
    ∃ cont, continuationOf existing instructions = some cont ∧ r.2 = nextStateOf cont := by
  unfold resolve at h
  split at h
  · exact absurd h (by simp)
  · rename_i lines ns hstep
    obtain ⟨cont, hc, hns⟩ := resolveStep_state hstep
    split at h
    · injection h with h'
      refine ⟨cont, hc, ?_⟩
      rw [← h']
      exact hns
    · split at h
      · exact absurd h (by simp)
      · split at h
        · exact absurd h (by simp)
        · split at h
          · exact absurd h (by simp)
          · split at h
            · exact absurd h (by simp)
            · injection h with h'
              refine ⟨cont, hc, ?_⟩
              rw [← h']
              exact hns

/-! ## C10: the next lane set has distinct, ascending columns -/

/-- C10: for every successful `resolve` call, on any lane set and
instruction batch, the returned next lane set lists its lanes at strictly
ascending (hence pairwise-distinct) columns. -/
theorem resolve_nextState_ascending (existing : List Lane) (instructions : List Instr)
    (w : Nat) (r : List Char × List Lane) (h : resolve existing instructions w = some r) :
    (r.2.map Lane.col).Pairwise (· < ·) := by
  obtain ⟨cont, -, hns⟩ := resolve_state h
  rw [hns]
  exact nextStateOf_sorted_cols cont

/-- Witness for `resolve_nextState_ascending` on a concrete call. -/
theorem resolve_nextState_ascending_witness :
    resolve [⟨0, false, some ['t']⟩] [] 65 = some (['│'], [⟨0, false, some ['t']⟩])
    ∧ (([⟨0, false, some ['t']⟩] : List Lane).map Lane.col).Pairwise (· < ·) :=
  ⟨rfl, resolve_nextState_ascending [⟨0, false, some ['t']⟩] [] 65
    (['│'], [⟨0, false, some ['t']⟩]) rfl⟩

/-! ## C2: merging lanes that land on the same column -/

/-- C2: in one resolve step, the lanes landing on a common destination
column `k` (the continuation entries at `k`, instruction-driven
continuations first in batch order, then implicitly passed-through lanes
in their existing order) merge into exactly one lane: its style is bold iff
any contributor is bold, and its text is the first contributor's text; the
later contributors' texts are dropped. -/
theorem resolve_merge (existing : List Lane) (instructions : List Instr) (w : Nat)
    (r : List Char × List Lane) (cont : List Lane) (k : Nat) (x : Lane) (xs : List Lane)
    (hr : resolve existing instructions w = some r)
    (hc : continuationOf existing instructions = some cont)
    (hk : cont.filter (fun la => la.col == k) = x :: xs) :
    r.2.filter (fun la => la.col == k) = [⟨k, (x :: xs).any Lane.pen, x.text⟩] := by
  obtain ⟨cont2, hc2, hns⟩ := resolve_state hr
  rw [hc] at hc2
  injection hc2 with he
  subst he
  rw [hns]
  exact nextStateOf_filter _ k x xs hk

/-- Witness for `resolve_merge`: two lanes (normal carrying "a", bold
carrying "b") land on column 1; the merged lane is bold and keeps "a". -/
theorem resolve_merge_witness :
    continuationOf [⟨0, false, some ['a']⟩, ⟨1, true, some ['b']⟩] [move 0 1]
      = some [⟨1, false, some ['a']⟩, ⟨1, true, some ['b']⟩]
    ∧ ([⟨1, true, some ['a']⟩] : List Lane).filter (fun la => la.col == 1)
      = [⟨1, ([⟨1, false, some ['a']⟩, ⟨1, true, some ['b']⟩] : List Lane).any Lane.pen,
          some ['a']⟩] :=
  ⟨rfl, resolve_merge [⟨0, false, some ['a']⟩, ⟨1, true, some ['b']⟩] [move 0 1] 65
    (['└', '┨'], [⟨1, true, some ['a']⟩])
    [⟨1, false, some ['a']⟩, ⟨1, true, some ['b']⟩] 1
    ⟨1, false, some ['a']⟩ [⟨1, true, some ['b']⟩] rfl rfl rfl⟩

/-! ## C7: idempotence of the left-packing pass -/

/-- `find?` returns the unique element satisfying a predicate. -/
theorem find?_eq_some_of_unique {p : Lane → Bool} : ∀ {l : List Lane} {la : Lane},
    la ∈ l → p la = true → (∀ x ∈ l, p x = true → x = la) → l.find? p = some la := by
  intro l
  induction l with
  | nil => intro la h _ _; cases h
  | cons b bs ih =>
    intro la hmem hp huniq
    by_cases hb : p b = true
    · rw [List.find?_cons_of_pos _ hb]
      rw [huniq b (List.mem_cons_self b bs) hb]
    · rw [List.find?_cons_of_neg _ hb]
      have hla : la ∈ bs := by
        rcases List.mem_cons.mp hmem with rfl | h'
        · exact absurd hp hb
        · exact h'
      exact ih hla hp (fun x hx hpx => huniq x (List.mem_cons_of_mem b hx) hpx)

/-- With pairwise-distinct columns the `pens`/`texts` dict lookup finds the
(unique) lane at a column. -/
theorem lastLane_eq {lanes : List Lane} (hnd : (lanes.map Lane.col).Nodup)
    {la : Lane} (hla : la ∈ lanes) : lastLane lanes la.col = some la := by
  apply find?_eq_some_of_unique (List.mem_reverse.mpr hla) (by simp)
  intro x hx hpx
  have hx2 : x ∈ lanes := List.mem_reverse.mp hx
  have hcol : x.col = la.col := by simpa using hpx
  exact List.inj_on_of_nodup_map hnd hx2 hla hcol

/-- With pairwise-distinct columns, filtering on one column yields exactly
the lane at that column. -/
theorem filter_col_single : ∀ {lanes : List Lane}, (lanes.map Lane.col).Nodup →
    ∀ {la : Lane}, la ∈ lanes → lanes.filter (fun x => x.col == la.col) = [la] := by
  intro lanes
  induction lanes with
  | nil => intro _ la hla; cases hla
  | cons b bs ih =>
    intro hnd la hla
    rw [List.map_cons, List.nodup_cons] at hnd
    rcases List.mem_cons.mp hla with rfl | h'
    · rw [List.filter_cons, if_pos (by simp)]
      have hnil : bs.filter (fun x => x.col == la.col) = [] := by
        rw [List.filter_eq_nil_iff]
        intro z hz
        simp only [beq_iff_eq]
        intro hzc
        exact hnd.1 (by rw [← hzc]; exact List.mem_map_of_mem Lane.col hz)
      rw [hnil]
    · have hbla : ¬ b.col = la.col := by
        intro he
        exact hnd.1 (by rw [he]; exact List.mem_map_of_mem Lane.col h')
      rw [List.filter_cons, if_neg (by simpa using hbla)]
      exact ih hnd.2 h'

/-- A lane set whose columns are `0, 1, …, n-1` in order has strictly
increasing columns. -/
theorem pairwise_lt_lanes {lanes : List Lane} {n : Nat}
    (h : lanes.map Lane.col = List.range n) :
    lanes.Pairwise (fun a b => a.col < b.col) := by
  have hm : (lanes.map Lane.col).Pairwise (· < ·) := by
    rw [h]
    exact List.pairwise_lt_range n
  exact List.pairwise_map.mp hm

/-- On strictly sorted lanes `groupby` yields singleton groups. -/
theorem groupby_of_strict : ∀ {l : List Lane}, l.Pairwise (fun a b => a.col < b.col) →
    groupby l = l.map (fun la => (la.col, [la])) := by
  intro l
  induction l with
  | nil => intro _; rfl
  | cons x xs ih =>
    intro h
    cases xs with
    | nil => rfl
    | cons y ys =>
      have hxy : x.col < y.col := List.rel_of_pairwise_cons h (List.mem_cons_self y ys)
      rw [groupby_cons, ih h.of_cons]
      simp [Nat.ne_of_lt hxy]

/-- Merging a singleton group is the identity. -/
theorem auxMerge_single (la : Lane) : auxMerge (la.col, [la]) = la := by
  simp [auxMerge]

/-- The merged next state of any permutation of a strictly sorted lane set
is that lane set itself. -/
theorem nextStateOf_perm_strict {c lanes : List Lane} (hperm : c.Perm lanes)
    (hs : lanes.Pairwise (fun a b => a.col < b.col)) : nextStateOf c = lanes := by
  have hnd : (lanes.map Lane.col).Nodup :=
    List.pairwise_map.mpr (hs.imp (fun h => Nat.ne_of_lt h))
  have hsortperm : (List.insertionSort laneRel c).Perm lanes :=
    (List.perm_insertionSort laneRel c).trans hperm
  have hnd2 : ((List.insertionSort laneRel c).map Lane.col).Nodup :=
    (hsortperm.map Lane.col).symm.nodup hnd
  have hle : (List.insertionSort laneRel c).Pairwise laneRel := by
    simpa [List.Sorted] using List.sorted_insertionSort laneRel c
  have hne : (List.insertionSort laneRel c).Pairwise (fun a b => a.col ≠ b.col) :=
    List.pairwise_map.mp hnd2
  have hlt : (List.insertionSort laneRel c).Pairwise (fun a b => a.col < b.col) :=
    (hle.and hne).imp (fun h => Nat.lt_of_le_of_ne h.1 h.2)
  haveI : IsAntisymm Lane (fun a b => a.col < b.col) :=
    ⟨fun _ _ h h2 => absurd (Nat.lt_trans h h2) (Nat.lt_irrefl _)⟩
  have heq : List.insertionSort laneRel c = lanes :=
    List.eq_of_perm_of_sorted hsortperm hlt hs
  unfold nextStateOf
  rw [heq, groupby_of_strict hs, List.map_map]
  have hid : ∀ la ∈ lanes, (auxMerge ∘ fun la => (la.col, [la])) la = id la :=
    fun la _ => auxMerge_single la
  rw [List.map_congr_left hid, List.map_id]

/-- One left-packing step on an already-packed lane set: the instruction is
`move i i`, the drawn row changes nothing, and the lane set is returned
unchanged. -/
theorem resolve_move_self {lanes : List Lane} {n i : Nat}
    (h : lanes.map Lane.col = List.range n) (hi : i < n) :
    ∃ row, resolve lanes [move i i] 65 = some (row, lanes) := by
  have hnd : (lanes.map Lane.col).Nodup := by
    rw [h]
    exact List.nodup_range n
  have hmem : i ∈ lanes.map Lane.col := by
    rw [h]
    exact List.mem_range.mpr hi
  obtain ⟨la, hla, hcol⟩ := List.mem_map.mp hmem
  have hlast : lastLane lanes i = some la := by
    rw [← hcol]
    exact lastLane_eq hnd hla
  have hla2 : (⟨i, la.pen, la.text⟩ : Lane) = la := by
    obtain ⟨lc, lp, lt⟩ := la
    simp only at hcol
    rw [hcol]
  have hconts : contsOf lanes [move i i] = some [la] := by
    simp only [contsOf, move]
    rw [show (List.filter (fun i => !i.go) [(⟨i, i, false⟩ : Instr)])
          = [(⟨i, i, false⟩ : Instr)] from rfl]
    rw [List.mapM_cons, List.mapM_nil]
    simp [hlast, hla2]
  have himpl : implicitOf lanes [move i i] = lanes.filter (fun x => !(x.col == i)) := by
    simp only [implicitOf, move]
    apply List.filter_congr
    intro x _
    cases hxb : x.col == i <;> simp [List.contains, List.elem, hxb]
  have hcont : continuationOf lanes [move i i]
      = some (la :: lanes.filter (fun x => !(x.col == i))) := by
    rw [continuationOf, hconts, himpl]
    rfl
  have hfs : lanes.filter (fun x => x.col == i) = [la] := by
    have hthis := filter_col_single hnd hla
    rw [hcol] at hthis
    exact hthis
  have hperm : (la :: lanes.filter (fun x => !(x.col == i))).Perm lanes := by
    have hap := List.filter_append_perm (fun x : Lane => x.col == i) lanes
    rw [hfs] at hap
    exact hap
  have hstrict : lanes.Pairwise (fun a b => a.col < b.col) := pairwise_lt_lanes h
  have hns : nextStateOf (la :: lanes.filter (fun x => !(x.col == i))) = lanes :=
    nextStateOf_perm_strict hperm hstrict
  have hew : ([move i i]).mapM
      (fun ins => (lastLane lanes ins.pos).map
        (fun la2 => drawhorizontal ins.pos ins.dest la2.pen))
      = some [drawhorizontal i i la.pen] := by
    rw [List.mapM_cons, List.mapM_nil]
    simp [move, hlast]
  have hfind : ([move i i]).find? (fun ins => ins.go) = none := rfl
  have hres : resolve lanes [move i i] 65
      = some (overlay [drawverticals 'n' lanes,
                       overlay [drawhorizontal i i la.pen],
                       drawverticals 's' lanes], lanes) := by
    unfold resolve resolveStep
    rw [hew]
    simp only [hcont, hns, hfind]
  exact ⟨_, hres⟩

/-- On an already-packed lane set the instruction batches of the
left-packing pass are identity moves. -/
theorem toleft_enum : ∀ (lanes : List Lane) (k m : Nat),
    lanes.map Lane.col = List.range' k m →
    (List.enumFrom k lanes).map (fun p => [move p.2.col p.1])
      = (List.range' k m).map (fun j => [move j j]) := by
  intro lanes
  induction lanes with
  | nil =>
    intro k m h
    have hm : m = 0 := by simpa using (congrArg List.length h).symm
    subst hm
    rfl
  | cons x xs ih =>
    intro k m h
    cases m with
    | zero => simp at h
    | succ m2 =>
      rw [List.range'_succ] at h
      simp only [List.map_cons, List.cons.injEq] at h
      obtain ⟨h1, h2⟩ := h
      rw [List.enumFrom_cons, List.range'_succ]
      simp only [List.map_cons]
      rw [ih (k + 1) m2 h2, h1]

/-- Chaining identity-move batches leaves the lane set unchanged. -/
theorem resolve_list_moves {lanes : List Lane} {n : Nat}
    (h : lanes.map Lane.col = List.range n) :
    ∀ (js : List Nat), (∀ j ∈ js, j < n) → ∀ acc : List (List Char),
    ∃ out, (js.map (fun j => [move j j])).foldlM
        (fun (a : List (List Char) × List Lane) ins =>
          (resolve a.2 ins).map (fun r => (a.1 ++ [r.1], r.2)))
        (acc, lanes) = some (out, lanes) := by
  intro js
  induction js with
  | nil => intro _ acc; exact ⟨acc, rfl⟩
  | cons j js2 ih =>
    intro hj acc
    obtain ⟨row, hrow⟩ := resolve_move_self h (hj j (List.mem_cons_self j js2))
    obtain ⟨out, hout⟩ := ih (fun j2 hj2 => hj j2 (List.mem_cons_of_mem j hj2)) (acc ++ [row])
    refine ⟨out, ?_⟩
    rw [List.map_cons, List.foldlM_cons]
    rw [hrow]
    simpa using hout

/-- C7: the left-packing pass is idempotent on an already-packed lane set
(columns `0, 1, …, n-1` in order): every instruction it issues is an
identity move (`move j j`, destination equal to source), and the lane set
returned after the whole pass is the input lane set, with no lane changing
column. -/
theorem toleft_idempotent (lanes : List Lane) (n : Nat)
    (h : lanes.map Lane.col = List.range n) :
    toleft_instructions lanes = (List.range n).map (fun j => [move j j])
    ∧ ∃ out, toleft lanes = some (out, lanes) := by
  have h1 : toleft_instructions lanes = (List.range n).map (fun j => [move j j]) := by
    unfold toleft_instructions
    rw [List.enum_eq_enumFrom, List.range_eq_range']
    exact toleft_enum lanes 0 n (by rwa [List.range_eq_range'] at h)
  refine ⟨h1, ?_⟩
  unfold toleft resolve_list
  rw [h1]
  obtain ⟨out, hout⟩ := resolve_list_moves h (List.range n)
    (fun j hj => List.mem_range.mp hj) []
  rw [hout]
  exact ⟨_, rfl⟩

/-- Witness for `toleft_idempotent` on a packed two-lane set. -/
theorem toleft_idempotent_witness :
    (([⟨0, false, some ['a']⟩, ⟨1, true, some ['b']⟩] : List Lane).map Lane.col
      = List.range 2)
    ∧ (toleft_instructions [⟨0, false, some ['a']⟩, ⟨1, true, some ['b']⟩]
        = (List.range 2).map (fun j => [move j j])
      ∧ ∃ out, toleft [⟨0, false, some ['a']⟩, ⟨1, true, some ['b']⟩]
          = some (out, [⟨0, false, some ['a']⟩, ⟨1, true, some ['b']⟩])) :=
  ⟨by decide, toleft_idempotent _ 2 (by decide)⟩

/-! ## C3: the alternating pen of the marker pass -/

/-- The pen of the `j`-th span's two boundary lanes, starting the
alternation from `b`: `b` for even `j`, `!b` for odd `j`. -/
theorem preAux_pen : ∀ (ps : List PSpan) (b : Bool) (j : Nat), j < ps.length →
    ((preAux ps b).get? (2 * j)).map Lane.pen = some (if j % 2 = 1 then !b else b)
    ∧ ((preAux ps b).get? (2 * j + 1)).map Lane.pen = some (if j % 2 = 1 then !b else b) := by
  intro ps
  induction ps with
  | nil =>
    intro b j hj
    simp at hj
  | cons p ps ih =>
    intro b j hj
    cases j with
    | zero =>
      constructor <;> simp [preAux]
    | succ j2 =>
      have hj2 : j2 < ps.length := by simpa using hj
      have hind := ih (!b) j2 hj2
      have hpen : (if j2 % 2 = 1 then !(!b) else (!b)) = (if (j2 + 1) % 2 = 1 then !b else b) := by
        rcases Nat.mod_two_eq_zero_or_one j2 with h2 | h2
        · have h3 : (j2 + 1) % 2 = 1 := by omega
          simp [h2, h3]
        · have h3 : (j2 + 1) % 2 = 0 := by omega
          simp [h2, h3]
      have hsh : 2 * (j2 + 1) = 2 * j2 + 1 + 1 := by omega
      constructor
      · rw [hsh]
        show ((preAux (p :: ps) b).get? (2 * j2 + 1 + 1)).map Lane.pen = _
        rw [show preAux (p :: ps) b
              = (⟨p.start, b, p.comment⟩ : Lane) :: (⟨p.stop, b, p.comment⟩ : Lane)
                  :: preAux ps (!b) from rfl]
        rw [List.get?_cons_succ, List.get?_cons_succ]
        rw [hind.1, hpen]
      · rw [hsh]
        show ((preAux (p :: ps) b).get? (2 * j2 + 1 + 1 + 1)).map Lane.pen = _
        rw [show preAux (p :: ps) b
              = (⟨p.start, b, p.comment⟩ : Lane) :: (⟨p.stop, b, p.comment⟩ : Lane)
                  :: preAux ps (!b) from rfl]
        rw [show 2 * j2 + 1 + 1 + 1 = (2 * j2 + 1) + 1 + 1 from rfl]
        rw [List.get?_cons_succ, List.get?_cons_succ]
        rw [hind.2, hpen]

/-- C3 (counterexample): on two described segments the marker pass assigns
the pens `[False, False, True, True]` to the four boundary lanes — the
first span is drawn with pen `False`, which renders the *light* (normal)
glyphs, while pen `True` renders the *heavy* (bold) glyphs: the first
described segment is normal, not bold as the claim states. -/
theorem nmarkers_first_span_not_bold :
    (nmarkersPre [⟨"aa".data, some "x".data, 2, 0⟩,
                  ⟨"bb".data, some "y".data, 2, 3⟩]).map Lane.pen
      = [false, false, true, true]
    ∧ box [Sum.inr (['n'], false)] = '╵'
    ∧ box [Sum.inr (['n'], true)] = '╹' :=
  ⟨rfl, rfl, rfl⟩

/-- C3 (amended): the styles of the described segments alternate strictly
in the order the spans are discovered, and independently of the gaps left
by undescribed segments — but the cycle is `cycle([False, True])`, so the
*first* described segment gets the normal pen, the second bold, the third
normal, and so on: span `j`'s two boundary lanes both carry pen
`j % 2 == 1`. -/
theorem nmarkers_pens (ts : List NToken) (j : Nat) (hj : j < ts.length) :
    ((nmarkersPre ts).get? (2 * j)).map Lane.pen = some (decide (j % 2 = 1))
    ∧ ((nmarkersPre ts).get? (2 * j + 1)).map Lane.pen = some (decide (j % 2 = 1)) := by
  have hlen : (psOf ts).length = ts.length := by simp [psOf]
  have h := preAux_pen (psOf ts) false j (by omega)
  unfold nmarkersPre
  have hpen : (if j % 2 = 1 then !false else false) = decide (j % 2 = 1) := by
    by_cases hp : j % 2 = 1 <;> simp [hp]
  rw [← hpen]
  exact h

/-- Witness for `nmarkers_pens`: the second described span (index 1) is
bold. -/
theorem nmarkers_pens_witness :
    (1 < ([⟨"aa".data, some "x".data, 2, 0⟩,
           ⟨"bb".data, some "y".data, 2, 3⟩] : List NToken).length)
    ∧ (((nmarkersPre [⟨"aa".data, some "x".data, 2, 0⟩,
                      ⟨"bb".data, some "y".data, 2, 3⟩]).get? (2 * 1)).map Lane.pen
        = some (decide (1 % 2 = 1))
      ∧ ((nmarkersPre [⟨"aa".data, some "x".data, 2, 0⟩,
                       ⟨"bb".data, some "y".data, 2, 3⟩]).get? (2 * 1 + 1)).map Lane.pen
        = some (decide (1 % 2 = 1))) :=
  ⟨by decide, nmarkers_pens _ 1 (by decide)⟩

/-! ## C6: algebra of `overlayc` -/

/-- Folding a recipe over an arbitrary starting rose: the recipe's own rose
wins where it is defined, the starting rose elsewhere. -/
theorem roseFold_eq : ∀ (l : List Char) (m : Char → Option Char) (d : Char),
    roseFold m l d
      = match roseFold (fun _ => none) l d with
        | some c => some c
        | none => m d := by
  intro l
  induction l with
  | nil => intro m d; rfl
  | cons c l ih =>
    intro m d
    have hstep : ∀ m2 : Char → Option Char, roseFold m2 (c :: l)
        = roseFold (fun d2 => if d2 = c.toLower then some c else m2 d2) l := by
      intro m2
      rfl
    rw [hstep, hstep, ih, ih (fun d2 => if d2 = c.toLower then some c else none) d]
    cases hrl : roseFold (fun _ => none) l d
    · by_cases hd : d = c.toLower <;> simp [hd]
    · rfl

/-- The rose of a concatenation: the second recipe wins per direction. -/
theorem roseFold_append (s t : List Char) (d : Char) :
    roseFold (fun _ => none) (s ++ t) d
      = match roseFold (fun _ => none) t d with
        | some c => some c
        | none => roseFold (fun _ => none) s d := by
  have h1 : roseFold (fun _ => none) (s ++ t) d
      = roseFold (roseFold (fun _ => none) s) t d := by
    simp [roseFold, List.foldl_append]
  rw [h1, roseFold_eq t (roseFold (fun _ => none) s) d]

/-- Two recipes that agree in boldness on their shared directions compose
to the same canonical direction string in either order. -/
theorem dirOf_pair_comm {ra rb : List Char} (hagree : agreeOn ra rb) :
    dirOf [Sum.inl ra, Sum.inl rb] = dirOf [Sum.inl rb, Sum.inl ra] := by
  unfold dirOf
  have hflat1 : (([Sum.inl ra, Sum.inl rb] : List BoxItem).map boxNorm).flatten = ra ++ rb := by
    simp [boxNorm]
  have hflat2 : (([Sum.inl rb, Sum.inl ra] : List BoxItem).map boxNorm).flatten = rb ++ ra := by
    simp [boxNorm]
  rw [hflat1, hflat2]
  apply List.filterMap_congr
  intro d hd
  rw [roseFold_append ra rb d, roseFold_append rb ra d]
  have hag := hagree d hd
  cases hra : roseFold (fun _ => none) ra d
  · cases hrb : roseFold (fun _ => none) rb d <;> rfl
  · cases hrb : roseFold (fun _ => none) rb d
    · rfl
    · have : roseFold (fun _ => none) ra d = roseFold (fun _ => none) rb d :=
        hag (by rw [hra]; rfl) (by rw [hrb]; rfl)
      rw [hra, hrb] at this
      injection this with hv
      simp [hv]

/-- Composing two agreeing glyph recipes commutes. -/
theorem box_pair_comm {ra rb : List Char} (hagree : agreeOn ra rb) :
    box [Sum.inl ra, Sum.inl rb] = box [Sum.inl rb, Sum.inl ra] := by
  unfold box
  rw [dirOf_pair_comm hagree]

/-- Every table recipe composed with itself reproduces its glyph. -/
theorem boxes_self : ∀ p ∈ boxes, box [Sum.inl p.1, Sum.inl p.1] = p.2 := by
  decide

/-- A successful recipe lookup comes from a table entry. -/
theorem box2recipe_mem {c : Char} {r : List Char} (h : box2recipe c = some r) :
    (r, c) ∈ boxes := by
  unfold box2recipe at h
  cases hf : boxes.find? (fun p => p.2 == c) with
  | none => rw [hf] at h; cases h
  | some p =>
    rw [hf] at h
    injection h with h2
    have hmem := List.mem_of_find?_eq_some hf
    have hpc : p.2 = c := by simpa using List.find?_some hf
    rw [← h2, ← hpc]
    exact hmem

/-- `overlayc` is idempotent on every character. -/
theorem overlayc_idem_aux (a : Char) : overlayc a a = a := by
  by_cases ha : a = ' '
  · simp [overlayc, ha]
  · unfold overlayc
    rw [if_neg ha, if_neg ha]
    cases hr : box2recipe a with
    | none => rfl
    | some r =>
      have hmem := box2recipe_mem hr
      have hself := boxes_self (r, a) hmem
      simpa using hself

/-- `overlayc` commutes in each of the cases of the amended claim. -/
theorem overlayc_comm_aux (a b : Char)
    (h : a = ' ' ∨ b = ' ' ∨ a = b
      ∨ ((box2recipe a).isSome ∧ box2recipe b = none)
      ∨ (box2recipe a = none ∧ (box2recipe b).isSome)
      ∨ (∃ ra rb, box2recipe a = some ra ∧ box2recipe b = some rb ∧ agreeOn ra rb)) :
    overlayc a b = overlayc b a := by
  rcases h with rfl | rfl | rfl | ⟨h1, h2⟩ | ⟨h1, h2⟩ | ⟨ra, rb, h1, h2, hag⟩
  · by_cases hb : b = ' ' <;> simp [overlayc, hb]
  · by_cases ha : a = ' ' <;> simp [overlayc, ha]
  · rfl
  · by_cases ha : a = ' '
    · rw [ha] at h1
      exact absurd h1 (by decide)
    · by_cases hb : b = ' '
      · subst hb
        simp [overlayc, ha]
      · obtain ⟨ra, hra⟩ := Option.isSome_iff_exists.mp h1
        unfold overlayc
        rw [if_neg ha, if_neg hb, if_neg hb, if_neg ha]
        simp [hra, h2]
  · by_cases hb : b = ' '
    · rw [hb] at h2
      exact absurd h2 (by decide)
    · by_cases ha : a = ' '
      · subst ha
        simp [overlayc, hb]
      · obtain ⟨rb, hrb⟩ := Option.isSome_iff_exists.mp h2
        unfold overlayc
        rw [if_neg ha, if_neg hb, if_neg hb, if_neg ha]
        simp [hrb, h1]
  · have hsp : box2recipe ' ' = none := rfl
    have ha : ¬ a = ' ' := by
      intro he
      rw [he, hsp] at h1
      cases h1
    have hb : ¬ b = ' ' := by
      intro he
      rw [he, hsp] at h2
      cases h2
    unfold overlayc
    rw [if_neg ha, if_neg hb, if_neg hb, if_neg ha]
    simp only [h1, h2]
    exact box_pair_comm hag

/-- C6 (counterexample): `overlayc` is not commutative.  Two distinct
non-glyph characters: the first wins in either order.  Two box glyphs that
disagree in boldness on a shared direction: the second's boldness wins in
either order. -/
theorem overlayc_not_comm :
    (overlayc 'x' 'y' = 'x' ∧ overlayc 'y' 'x' = 'y' ∧ ('x' : Char) ≠ 'y')
    ∧ (overlayc '─' '━' = '━' ∧ overlayc '━' '─' = '─' ∧ ('━' : Char) ≠ '─') := by
  decide

/-- C6 (amended): `overlayc(a,b) = overlayc(b,a)` whenever one argument is
a space, or the arguments are equal, or exactly one is a recognized
box-drawing glyph, or both are glyphs agreeing in boldness on their shared
directions (when both are unrecognized non-space characters the first
argument wins, and on a shared direction of two glyphs the second
argument's boldness wins); and `overlayc(a,a) = a` for every character
`a` — in particular for every recognized glyph and for the space. -/
theorem overlayc_comm_idem :
    (∀ a b : Char, (a = ' ' ∨ b = ' ' ∨ a = b
        ∨ ((box2recipe a).isSome ∧ box2recipe b = none)
        ∨ (box2recipe a = none ∧ (box2recipe b).isSome)
        ∨ (∃ ra rb, box2recipe a = some ra ∧ box2recipe b = some rb ∧ agreeOn ra rb))
      → overlayc a b = overlayc b a)
    ∧ (∀ a : Char, overlayc a a = a) :=
  ⟨overlayc_comm_aux, overlayc_idem_aux⟩

/-- Witness for `overlayc_comm_idem`: the glyphs `─` and `│` share no
direction, so they agree and overlay commutatively (to `┼`). -/
theorem overlayc_comm_idem_witness :
    (∃ ra rb, box2recipe '─' = some ra ∧ box2recipe '│' = some rb ∧ agreeOn ra rb)
    ∧ overlayc '─' '│' = overlayc '│' '─'
    ∧ overlayc '─' '│' = '┼'
    ∧ overlayc '┌' '┌' = '┌' :=
  ⟨⟨['e','w'], ['n','s'], rfl, rfl, by decide⟩,
   overlayc_comm_idem.1 '─' '│'
     (Or.inr (Or.inr (Or.inr (Or.inr (Or.inr ⟨['e','w'], ['n','s'], rfl, rfl, by decide⟩))))),
   rfl,
   overlayc_comm_idem.2 '┌'⟩

/-! ## C9: word-wrapping a single long word -/

theorem wrapLoop_nil (w f : Nat) (hl : Bool) : wrapLoop w f hl [] = [] := by
  cases f <;> rfl

/-- The defining equation of `chunkRuns` on a cons, as a rewrite rule. -/
theorem chunkRuns_cons (c : Char) (cs : List Char) :
    chunkRuns (c :: cs)
      = match chunkRuns cs with
        | [] => [[c]]
        | [] :: rest => [c] :: [] :: rest
        | (d :: ds) :: rest =>
          if ((c == ' ') == (d == ' ')) then (c :: d :: ds) :: rest
          else [c] :: (d :: ds) :: rest := rfl

/-- A nonempty space-free text is a single chunk. -/
theorem chunkRuns_single : ∀ l : List Char, l ≠ [] → (∀ c ∈ l, (c == ' ') = false) →
    chunkRuns l = [l] := by
  intro l
  induction l with
  | nil => intro h _; exact absurd rfl h
  | cons c cs ih =>
    intro _ h
    cases cs with
    | nil => rfl
    | cons d ds =>
      have hih : chunkRuns (d :: ds) = [d :: ds] :=
        ih (by simp) (fun e he => h e (List.mem_cons_of_mem c he))
      rw [chunkRuns_cons, hih]
      simp [h c (List.mem_cons_self c (d :: ds)),
            h d (List.mem_cons_of_mem c (List.mem_cons_self d ds))]

/-- `split("\n")` of a newline-free text. -/
theorem splitNL_no_newline : ∀ l : List Char, (∀ c ∈ l, ¬ c = '\n') → splitNL l = [l] := by
  intro l
  induction l with
  | nil => intro _; rfl
  | cons c cs ih =>
    intro h
    have hc : ¬ c = '\n' := h c (List.mem_cons_self c cs)
    have hih := ih (fun d hd => h d (List.mem_cons_of_mem c hd))
    simp [splitNL, hc, hih]

/-- `_munge_whitespace` is the identity on whitespace-free text. -/
theorem munge_id {l : List Char} (h : ∀ c ∈ l, isPyWS c = false) : munge l = l := by
  unfold munge
  conv_rhs => rw [← List.map_id l]
  apply List.map_congr_left
  intro c hc
  simp [h c hc]

/-- One wrap iteration when the single chunk fits the budget. -/
theorem wrapLoop_step_fit (w f : Nat) (hl : Bool) (cs : List Char)
    (hall : cs.all (fun c => c == ' ') = false) (hfit : cs.length ≤ w) :
    wrapLoop w (f + 1) hl [cs] = [cs] := by
  have hdrop : dropLeadingWS hl [cs] = [cs] := by
    cases hl
    · rfl
    · simp [dropLeadingWS, hall]
  have hfill : fillLine w [cs] 0 [] = ([cs], cs.length, []) := by
    simp [fillLine, hfit]
  simp only [wrapLoop, hdrop, hfill]
  simp [hall, wrapLoop_nil]

/-- One wrap iteration on a single chunk longer than the budget: Python's
`_handle_long_word` cuts the first `width` characters onto the line and
leaves the remainder in the chunk queue. -/
theorem wrapLoop_step_long (w f : Nat) (hl : Bool) (cs : List Char) (hw : 0 < w)
    (hall : cs.all (fun c => c == ' ') = false)
    (htake_all : (cs.take w).all (fun c => c == ' ') = false)
    (hlong : w < cs.length) :
    wrapLoop w (f + 1) hl [cs] = cs.take w :: wrapLoop w f true [cs.drop w] := by
  have hdrop : dropLeadingWS hl [cs] = [cs] := by
    cases hl
    · rfl
    · simp [dropLeadingWS, hall]
  have hnofit : ¬ (0 + cs.length ≤ w) := by omega
  have hfill : fillLine w [cs] 0 [] = ([], 0, [cs]) := by
    simp only [fillLine]
    rw [if_neg hnofit]
  have hw1 : ¬ w < 1 := by omega
  simp only [wrapLoop, hdrop, hfill]
  simp [hlong, hw1, htake_all]

/-- Wrapping a single space-free chunk: the characters are preserved in
order (no hyphen or anything else is inserted, nothing is lost) and every
produced line is nonempty and within the budget. -/
theorem wrapLoop_single (w : Nat) (hw : 0 < w) :
    ∀ (fuel : Nat) (cs : List Char) (hl : Bool), cs ≠ [] →
      (∀ c ∈ cs, (c == ' ') = false) → cs.length ≤ fuel →
      (wrapLoop w fuel hl [cs]).flatten = cs
      ∧ ∀ l ∈ wrapLoop w fuel hl [cs], l.length ≤ w ∧ l ≠ [] := by
  intro fuel
  induction fuel with
  | zero =>
    intro cs hl hne hns hlen
    cases cs with
    | nil => exact absurd rfl hne
    | cons c cs2 => simp at hlen
  | succ f ih =>
    intro cs hl hne hns hlen
    have hall : cs.all (fun c => c == ' ') = false := by
      rw [List.all_eq_false]
      obtain ⟨c, hc⟩ : ∃ c, c ∈ cs := by
        cases cs with
        | nil => exact absurd rfl hne
        | cons d ds => exact ⟨d, List.mem_cons_self d ds⟩
      exact ⟨c, hc, by simp [hns c hc]⟩
    by_cases hfit : cs.length ≤ w
    · rw [wrapLoop_step_fit w f hl cs hall hfit]
      refine ⟨by simp, ?_⟩
      intro l hlmem
      rw [List.mem_singleton] at hlmem
      subst hlmem
      exact ⟨hfit, hne⟩
    · have hlong : w < cs.length := by omega
      have htake_len : (cs.take w).length = w := by
        rw [List.length_take]
        omega
      have htake_ne : cs.take w ≠ [] := by
        intro he
        rw [he] at htake_len
        simp at htake_len
        omega
      have htake_all : (cs.take w).all (fun c => c == ' ') = false := by
        rw [List.all_eq_false]
        obtain ⟨c, hc⟩ : ∃ c, c ∈ cs.take w := by
          cases hcs : cs.take w with
          | nil => exact absurd hcs htake_ne
          | cons d ds => exact ⟨d, hcs ▸ List.mem_cons_self d ds⟩
        exact ⟨c, hc, by simp [hns c (List.mem_of_mem_take hc)]⟩
      have hdrop_len : (cs.drop w).length = cs.length - w := List.length_drop w cs
      have hdrop_ne : cs.drop w ≠ [] := by
        intro he
        rw [he] at hdrop_len
        simp at hdrop_len
        omega
      have hdrop_ns : ∀ c ∈ cs.drop w, (c == ' ') = false := fun c hc =>
        hns c ((List.drop_sublist w cs).subset hc)
      have hdrop_fuel : (cs.drop w).length ≤ f := by
        rw [hdrop_len]
        omega
      obtain ⟨ihflat, ihprops⟩ := ih (cs.drop w) true hdrop_ne hdrop_ns hdrop_fuel
      rw [wrapLoop_step_long w f hl cs hw hall htake_all hlong]
      constructor
      · rw [List.flatten_cons, ihflat, List.take_append_drop]
      · intro l hlmem
        rcases List.mem_cons.mp hlmem with rfl | h2
        · refine ⟨?_, htake_ne⟩
          rw [htake_len]
        · exact ihprops l h2

/-- C9 (counterexample): wrapping the single 7-character word `aaaaaaa` to
budget 3 splits the word across three lines (`textwrap`'s default
`break_long_words=True`); no output line carries the word in full. -/
theorem reflow_breaks_long_word :
    reflow "aaaaaaa".data 3 = some ["aaa".data, "aaa".data, "a".data]
    ∧ ∀ line ∈ ["aaa".data, "aaa".data, "a".data], line ≠ "aaaaaaa".data :=
  ⟨rfl, by decide⟩

/-- C9 (amended): word-wrapping never hyphenates, loses or reorders
characters, but it *does* split a word longer than the budget: a single
whitespace-free (and, for this model, hyphen-free) word wraps to lines
whose concatenation is exactly the word, each line within the budget — so
when the word exceeds the budget it is broken across lines and is never
emitted in full on one line. -/
theorem reflow_long_word (word : List Char) (w : Nat) (hw : 0 < w) (hne : word ≠ [])
    (hns : ∀ c ∈ word, isPyWS c = false) (hhy : ∀ c ∈ word, ¬ c = '-') :
    ∃ lines, reflow word w = some lines
      ∧ lines.flatten = word
      ∧ (∀ l ∈ lines, l.length ≤ w)
      ∧ (w < word.length → ∀ l ∈ lines, l ≠ word) := by
  have hnospace : ∀ c ∈ word, (c == ' ') = false := by
    intro c hc
    have := hns c hc
    simp [isPyWS] at this
    simp [this.1]
  have hnonl : ∀ c ∈ word, ¬ c = '\n' := by
    intro c hc he
    have := hns c hc
    rw [he] at this
    simp [isPyWS] at this
  have hmunge : munge word = word := munge_id hns
  have hsplit : splitNL word = [word] := splitNL_no_newline word hnonl
  have hchunks : chunkRuns word = [word] := chunkRuns_single word hne hnospace
  obtain ⟨hflat, hprops⟩ := wrapLoop_single w hw (word.length + 1 + 1) word false hne
    hnospace (by omega)
  refine ⟨wrapLoop w (word.length + 1 + 1) false [word], ?_, hflat, ?_, ?_⟩
  · unfold reflow
    rw [hsplit]
    rw [List.mapM_cons, List.mapM_nil]
    unfold wrap wrapChunks
    rw [if_neg (by omega), hmunge, hchunks]
    simp
  · intro l hl
    exact (hprops l hl).1
  · intro hlong l hl he
    have := (hprops l hl).1
    rw [he] at this
    omega

/-- Witness for `reflow_long_word` on the word `aaaaaaa` with budget 3. -/
theorem reflow_long_word_witness :
    (0 < 3 ∧ "aaaaaaa".data ≠ [] ∧ (∀ c ∈ "aaaaaaa".data, isPyWS c = false)
      ∧ (∀ c ∈ "aaaaaaa".data, ¬ c = '-'))
    ∧ ∃ lines, reflow "aaaaaaa".data 3 = some lines
      ∧ lines.flatten = "aaaaaaa".data
      ∧ (∀ l ∈ lines, l.length ≤ 3)
      ∧ (3 < ("aaaaaaa".data).length → ∀ l ∈ lines, l ≠ "aaaaaaa".data) :=
  ⟨⟨by decide, by decide, by decide, by decide⟩,
   reflow_long_word "aaaaaaa".data 3 (by decide) (by decide) (by decide) (by decide)⟩

end Explane
